import Mathlib

/-!
Verification of the phokimo photochemical-kinetics core against its
natural-language specification.

The development shallowly embeds the relevant source functions:

* `src/phokimo/src/rate_constants.py` — the rate-theory formulas
  (`EyringEquation.compute_rate`, `AdhocRelaxation.compute_rate`);
* `src/phokimo/src/ode_builder.py` — `construct_ode`, the ODE right-hand
  side assembled from the reaction table and the rate matrix;
* `src/phokimo/src/terachem_values.py` — `State_Values.state_relative_list_hartree`,
  `Reactions.dEs`, `Reactions.T_eq`, `Reactions.rates`;
* `src/phokimo/src/additional_functions.py` — the product-percentage report
  and the exponential-fitting report.

Machine reals (numpy float64) are modelled by `ℝ`; numpy arrays by functions
out of `ℕ` (or `ℕ × ℕ` for matrices) together with explicit bounds where a
claim needs them; Python dicts by insertion-ordered association lists; the
external collaborators that the spec puts out of scope (the TeraChem output
reader behind `terachem_output`, and scipy's `curve_fit` optimiser) by
uninterpreted oracle parameters.  Sequential in-place array assignment is
modelled by folding `Function.update` over the sequence of writes the loops
perform, in program order.
-/

noncomputable section

/-! ## Physical constants (`rate_constants.py`, from `scipy.constants`) -/

/-- Gas constant R (J/(mol·K)), the value of `scipy.constants.R`. -/
def R_GAS : ℝ := 8.31446261815324

/-- Planck constant h (J·s), the value of `scipy.constants.Planck`. -/
def H_PLANCK : ℝ := 6.62607015e-34

/-- Boltzmann constant k_B (J/K), the value of `scipy.constants.Boltzmann`. -/
def K_BOLTZ : ℝ := 1.380649e-23

/-! ## Rate theories (`rate_constants.py`) -/

/-- `EyringEquation.compute_rate(dG, T=298.15, kappa=1)`:
`kappa * K_BOLTZ * T / H_PLANCK * np.exp(-dG / (R_GAS * T))`.
The Python defaults are `T = 298.15` and `kappa = 1`. -/
def eyringComputeRate (dG T kappa : ℝ) : ℝ :=
  kappa * K_BOLTZ * T / H_PLANCK * Real.exp (-dG / (R_GAS * T))

/-- The arithmetic expression of `AdhocRelaxation.compute_rate(dE, n_modes,
n_atoms, T=298.15)`: `K_BOLTZ * T / H_PLANCK * np.exp(-(n_modes * dE) /
((3 * n_atoms - 6) * R_GAS * T))`.  (Division here is Lean's total division;
see `adhocComputeRate` for the degenerate-denominator behaviour.) -/
def adhocRateFormula (dE n_modes n_atoms T : ℝ) : ℝ :=
  K_BOLTZ * T / H_PLANCK * Real.exp (-(n_modes * dE) / ((3 * n_atoms - 6) * R_GAS * T))

/-- `AdhocRelaxation.compute_rate` with its failure behaviour made explicit:
the body divides by `(3 * n_atoms - 6) * R_GAS * T` with no guard, so when
that denominator is zero the call does not return a rate (with plain Python
floats it raises an uncaught `ZeroDivisionError`; with a numpy scalar it
emits a non-finite value) — modelled as `none`.  There is no `DomainError`
class anywhere in the source. -/
def adhocComputeRate (dE n_modes n_atoms T : ℝ) : Option ℝ :=
  if (3 * n_atoms - 6) * R_GAS * T = 0 then none
  else some (adhocRateFormula dE n_modes n_atoms T)

/-! ## ODE construction (`ode_builder.py`) -/

/-- One iteration of the inner loop of `construct_ode`:
`odes[init] -= rates[init, target_final] * concentration[init]` followed by
`odes[target_final] += rates[init, target_final] * concentration[init]`,
executed in that order. -/
def applyEdge (rates : ℕ → ℕ → ℝ) (concentration : ℕ → ℝ) (init target_final : ℕ)
    (odes : ℕ → ℝ) : ℕ → ℝ :=
  Function.update
    (Function.update odes init (odes init - rates init target_final * concentration init))
    target_final
    ((Function.update odes init (odes init - rates init target_final * concentration init))
        target_final
      + rates init target_final * concentration init)

/-- `construct_ode(concentration, t, table, rates)`: starts from
`odes = [0.0 for _ in concentration]` and, for each `(init, final)` item of
`table` and each `target_final` in `final`, subtracts the flux
`rates[init, target_final] * concentration[init]` at `init` and adds it at
`target_final`.  `t` is accepted and unused, as in the source.  The result
vector has the length of `concentration`; entries are meaningful for indices
below that length. -/
def construct_ode (concentration : ℕ → ℝ) (t : ℝ) (table : List (ℕ × List ℕ))
    (rates : ℕ → ℕ → ℝ) : ℕ → ℝ :=
  table.foldl
    (fun odes p => p.2.foldl (fun odes target_final => applyEdge rates concentration p.1 target_final odes) odes)
    (fun _ => 0)

/-! ## Summation lemmas for the ODE right-hand side -/

theorem sum_update_range (f : ℕ → ℝ) {n i : ℕ} (hi : i < n) (v : ℝ) :
    ∑ j ∈ Finset.range n, Function.update f i v j =
      (∑ j ∈ Finset.range n, f j) - f i + v := by
  rw [Finset.sum_update_of_mem (Finset.mem_range.mpr hi), ← Finset.erase_eq]
  have h := Finset.add_sum_erase (Finset.range n) f (Finset.mem_range.mpr hi)
  linarith

theorem applyEdge_sum (rates : ℕ → ℕ → ℝ) (concentration : ℕ → ℝ) {n i j : ℕ}
    (hi : i < n) (hj : j < n) (odes : ℕ → ℝ) :
    ∑ p ∈ Finset.range n, applyEdge rates concentration i j odes p =
      ∑ p ∈ Finset.range n, odes p := by
  unfold applyEdge
  rw [sum_update_range _ hj, sum_update_range _ hi]
  ring

theorem construct_inner_sum (rates : ℕ → ℕ → ℝ) (concentration : ℕ → ℝ) {n i : ℕ}
    (hi : i < n) (l : List ℕ) (hl : ∀ j ∈ l, j < n) (odes : ℕ → ℝ) :
    ∑ p ∈ Finset.range n,
        (l.foldl (fun odes target_final => applyEdge rates concentration i target_final odes) odes) p =
      ∑ p ∈ Finset.range n, odes p := by
  induction l generalizing odes with
  | nil => rfl
  | cons j l ih =>
    have hj : j < n := hl j (by simp)
    have hl2 : ∀ x ∈ l, x < n := fun x hx => hl x (by simp [hx])
    rw [List.foldl_cons, ih hl2, applyEdge_sum rates concentration hi hj]

theorem construct_outer_sum (rates : ℕ → ℕ → ℝ) (concentration : ℕ → ℝ) {n : ℕ}
    (table : List (ℕ × List ℕ)) (ht : ∀ p ∈ table, p.1 < n ∧ ∀ j ∈ p.2, j < n)
    (odes : ℕ → ℝ) :
    ∑ p ∈ Finset.range n,
        (table.foldl
          (fun odes q => q.2.foldl (fun odes target_final => applyEdge rates concentration q.1 target_final odes) odes)
          odes) p =
      ∑ p ∈ Finset.range n, odes p := by
  induction table generalizing odes with
  | nil => rfl
  | cons q table ih =>
    have hq := ht q (by simp)
    have ht2 : ∀ p ∈ table, p.1 < n ∧ ∀ j ∈ p.2, j < n := fun p hp => ht p (by simp [hp])
    rw [List.foldl_cons, ih ht2, construct_inner_sum rates concentration hq.1 q.2 hq.2]

/-- Claim C1: for every concentration vector, time value, reaction table and
rate matrix (all table indices in range), the components of the derivative
vector returned by `construct_ode` sum to exactly zero: each edge subtracts
the flux `rates[init, final] * c[init]` at `init` and adds the same flux at
`final`, so the induced ODE conserves the total concentration of a closed
network. -/
theorem construct_ode_mass_conservation (n : ℕ) (concentration : ℕ → ℝ) (t : ℝ)
    (table : List (ℕ × List ℕ)) (rates : ℕ → ℕ → ℝ)
    (ht : ∀ p ∈ table, p.1 < n ∧ ∀ j ∈ p.2, j < n) :
    ∑ i ∈ Finset.range n, construct_ode concentration t table rates i = 0 := by
  unfold construct_ode
  rw [construct_outer_sum rates concentration table ht]
  simp

/-- Witness for C1: the two-state table `{0: [1]}` on a two-state system. -/
theorem construct_ode_mass_conservation_witness :
    (∀ p ∈ [((0 : ℕ), [(1 : ℕ)])], p.1 < 2 ∧ ∀ j ∈ p.2, j < 2) ∧
      ∑ i ∈ Finset.range 2,
        construct_ode (fun i => if i = 0 then 1 else 0) 0 [(0, [1])]
          (fun _ _ => 5) i = 0 :=
  ⟨by decide,
    construct_ode_mass_conservation 2 (fun i => if i = 0 then 1 else 0) 0
      [(0, [1])] (fun _ _ => 5) (by decide)⟩

/-- Claim C2: `EyringEquation.compute_rate(dG, T, kappa)` returns
`kappa * k_B * T / h * exp(-dG / (R * T))` (the Python defaults are
`T = 298.15`, `kappa = 1`); at `dG = 0` it returns exactly
`kappa * k_B * T / h`; and a negative `dG` is accepted with no validity
guard and (at the default `kappa = 1`) yields a value strictly greater than
`k_B * T / h`. -/
theorem eyringComputeRate_spec (dG T kappa : ℝ) (hT : 0 < T) :
    eyringComputeRate dG T kappa =
        kappa * K_BOLTZ * T / H_PLANCK * Real.exp (-dG / (R_GAS * T)) ∧
      eyringComputeRate 0 T kappa = kappa * K_BOLTZ * T / H_PLANCK ∧
      (dG < 0 → K_BOLTZ * T / H_PLANCK < eyringComputeRate dG T 1) := by
  refine ⟨rfl, ?_, ?_⟩
  · unfold eyringComputeRate
    rw [neg_zero, zero_div, Real.exp_zero, mul_one]
  · intro hdG
    unfold eyringComputeRate
    rw [one_mul]
    have hbase : 0 < K_BOLTZ * T / H_PLANCK := by
      have hK : (0 : ℝ) < K_BOLTZ := by norm_num [K_BOLTZ]
      have hH : (0 : ℝ) < H_PLANCK := by norm_num [H_PLANCK]
      positivity
    have harg : 0 < -dG / (R_GAS * T) := by
      have hR : (0 : ℝ) < R_GAS := by norm_num [R_GAS]
      have hdenom : 0 < R_GAS * T := mul_pos hR hT
      have hnum : 0 < -dG := by linarith
      exact div_pos hnum hdenom
    have hexp : 1 < Real.exp (-dG / (R_GAS * T)) := by
      calc (1 : ℝ) = Real.exp 0 := Real.exp_zero.symm
        _ < Real.exp (-dG / (R_GAS * T)) := Real.exp_lt_exp.mpr harg
    calc K_BOLTZ * T / H_PLANCK
        = K_BOLTZ * T / H_PLANCK * 1 := (mul_one _).symm
      _ < K_BOLTZ * T / H_PLANCK * Real.exp (-dG / (R_GAS * T)) := by
          exact (mul_lt_mul_left hbase).mpr hexp

/-- Witness for C2 at `dG = 0`, `T = 298.15`, `kappa = 1`. -/
theorem eyringComputeRate_spec_witness :
    (0 : ℝ) < 298.15 ∧ eyringComputeRate 0 298.15 1 = 1 * K_BOLTZ * 298.15 / H_PLANCK :=
  ⟨by norm_num, (eyringComputeRate_spec 0 298.15 1 (by norm_num)).2.1⟩

/-- Claim C3 (code behaviour at the failing input): at atom count
`n_atoms = 2` the denominator `(3 * n_atoms - 6) * R_GAS * T` of
`AdhocRelaxation.compute_rate` is zero and the unguarded division fails (an
uncaught `ZeroDivisionError` / non-finite value, not the `DomainError` the
specification requires — no `DomainError` exists in the source), while for
`n_atoms = 3` the documented formula value is returned. -/
theorem adhocComputeRate_zero_denominator :
    adhocComputeRate 1000 1 2 298.15 = none ∧
      adhocComputeRate 1000 1 3 298.15 =
        some (K_BOLTZ * 298.15 / H_PLANCK *
          Real.exp (-(1 * 1000) / ((3 * 3 - 6) * R_GAS * 298.15))) := by
  constructor
  · unfold adhocComputeRate
    rw [if_pos (by norm_num)]
  · unfold adhocComputeRate adhocRateFormula
    rw [if_neg (by norm_num [R_GAS])]

/-- Claim C4 (code behaviour at the failing input): `construct_ode` performs
no validation of the rate matrix — handed a matrix with the negative entry
`rates[0][1] = -1` it silently produces the (unphysical) derivative vector
`(1, -1)` instead of failing, and the driver passes the result straight to
`odeint`; no `DomainError` exists anywhere in the source. -/
theorem construct_ode_accepts_negative_rates :
    construct_ode (fun i => if i = 0 then 1 else 0) 0 [(0, [1])]
        (fun i j => if i = 0 ∧ j = 1 then -1 else 0) 0 = 1 ∧
      construct_ode (fun i => if i = 0 then 1 else 0) 0 [(0, [1])]
        (fun i j => if i = 0 ∧ j = 1 then -1 else 0) 1 = -1 := by
  constructor <;> simp [construct_ode, applyEdge, Function.update]

/-! ## Sequential in-place assignment, modelled as a list of writes

A run of array assignments `m[c] = v` is a list of `(cell, value)` pairs in
program order; `applyWrites` folds them over the array with
`Function.update`, and `lastWrite` reads off the value of the last write to
a given cell, which is what survives in the final array. -/

section WriteMachinery

variable {κ α β γ : Type} [DecidableEq κ]

/-- Apply a sequence of in-place assignments, earliest first. -/
def applyWrites (ws : List (κ × α)) (m : κ → α) : κ → α :=
  ws.foldl (fun m w => Function.update m w.1 w.2) m

/-- The value of the last assignment to cell `c`, if any. -/
def lastWrite (ws : List (κ × α)) (c : κ) : Option α :=
  match ws with
  | [] => none
  | w :: ws =>
    match lastWrite ws c with
    | some v => some v
    | none => if w.1 = c then some w.2 else none

theorem applyWrites_nil (m : κ → α) : applyWrites [] m = m := rfl

theorem lastWrite_cons (w : κ × α) (ws : List (κ × α)) (c : κ) :
    lastWrite (w :: ws) c =
      match lastWrite ws c with
      | some v => some v
      | none => if w.1 = c then some w.2 else none := rfl

theorem applyWrites_append (l1 l2 : List (κ × α)) (m : κ → α) :
    applyWrites (l1 ++ l2) m = applyWrites l2 (applyWrites l1 m) := by
  simp [applyWrites, List.foldl_append]

theorem applyWrites_apply (ws : List (κ × α)) (m : κ → α) (c : κ) :
    applyWrites ws m c = (lastWrite ws c).getD (m c) := by
  induction ws generalizing m with
  | nil => rfl
  | cons w ws ih =>
    show applyWrites ws (Function.update m w.1 w.2) c = _
    rw [ih, lastWrite_cons]
    rcases h : lastWrite ws c with _ | v
    · by_cases hc : w.1 = c
      · subst hc
        simp [Function.update]
      · simp [Function.update_noteq (fun hh => hc hh.symm), hc]
    · simp

theorem lastWrite_eq_none_of_not_mem {ws : List (κ × α)} {c : κ}
    (h : c ∉ ws.map Prod.fst) : lastWrite ws c = none := by
  induction ws with
  | nil => rfl
  | cons w ws ih =>
    have h1 : c ∉ ws.map Prod.fst := fun hc => h (by simp [hc])
    have h2 : ¬w.1 = c := fun hc => h (by simp [hc])
    rw [lastWrite_cons, ih h1]
    exact if_neg h2

theorem mem_of_lastWrite_eq_some {ws : List (κ × α)} {c : κ} {v : α}
    (h : lastWrite ws c = some v) : (c, v) ∈ ws := by
  induction ws with
  | nil => exact absurd h (by simp [lastWrite])
  | cons w ws ih =>
    rw [lastWrite_cons] at h
    rcases h2 : lastWrite ws c with _ | u
    · rw [h2] at h
      simp only at h
      by_cases hc : w.1 = c
      · rw [if_pos hc] at h
        have : w = (c, v) := by
          rcases w with ⟨w1, w2⟩
          simp only at hc
          simp only [Option.some.injEq] at h
          simp [hc, h]
        simp [this]
      · rw [if_neg hc] at h
        exact absurd h (by simp)
    · rw [h2] at h
      simp only [Option.some.injEq] at h
      subst h
      exact List.mem_cons_of_mem w (ih h2)

theorem lastWrite_of_nodup {ws : List (κ × α)} {c : κ} {v : α}
    (hnd : (ws.map Prod.fst).Nodup) (h : (c, v) ∈ ws) : lastWrite ws c = some v := by
  induction ws with
  | nil => exact absurd h (by simp)
  | cons w ws ih =>
    rw [List.map_cons, List.nodup_cons] at hnd
    rw [lastWrite_cons]
    rcases List.mem_cons.mp h with h1 | h1
    · have hc : lastWrite ws c = none := by
        apply lastWrite_eq_none_of_not_mem
        rw [← h1] at hnd
        exact hnd.1
      rw [hc, ← h1]
      simp
    · rw [ih hnd.2 h1]

theorem lastWrite_find_reverse (ws : List (κ × α)) (c : κ) :
    lastWrite ws c = (ws.reverse.find? (fun w => decide (w.1 = c))).map Prod.snd := by
  induction ws with
  | nil => rfl
  | cons w ws ih =>
    rw [lastWrite_cons, List.reverse_cons, List.find?_append, ih]
    rcases h2 : ws.reverse.find? (fun w => decide (w.1 = c)) with _ | u
    · by_cases hc : w.1 = c
      · simp [h2, hc]
      · simp [h2, hc]
    · simp [h2]

theorem foldl_append_acc (f : γ → List β) (l : List γ) (acc : List β) :
    l.foldl (fun acc a => acc ++ f a) acc = acc ++ l.foldl (fun acc a => acc ++ f a) [] := by
  induction l generalizing acc with
  | nil => simp
  | cons a l ih =>
    rw [List.foldl_cons, List.foldl_cons, ih (acc ++ f a), ih ([] ++ f a)]
    simp

theorem foldl_applyWrites (f : γ → List (κ × α)) (l : List γ) (m : κ → α) :
    l.foldl (fun m a => applyWrites (f a) m) m =
      applyWrites (l.foldl (fun acc a => acc ++ f a) []) m := by
  induction l generalizing m with
  | nil => rfl
  | cons a l ih =>
    have h1 : List.foldl (fun acc a => acc ++ f a) ([] ++ f a) l =
        f a ++ List.foldl (fun acc a => acc ++ f a) [] l := by
      rw [foldl_append_acc]
      simp
    rw [List.foldl_cons, List.foldl_cons, ih, h1, applyWrites_append]

theorem mem_foldl_append (f : γ → List β) (l : List γ) (w : β) :
    w ∈ l.foldl (fun acc a => acc ++ f a) [] ↔ ∃ a ∈ l, w ∈ f a := by
  induction l with
  | nil => simp
  | cons a l ih =>
    rw [List.foldl_cons, foldl_append_acc]
    simp [ih]

end WriteMachinery

/-! ## The configuration provider (`toml_reader.py` accessors)

The spec places configuration loading out of scope ("an opaque key-value
provider exposing the queries the core needs"), so `TomlReader` is modelled
as a record of exactly the queries `terachem_values.py` makes of it.
`states` lists the keys of the `[state]` table in insertion order, so
`state_num` (`name_to_num`, first-seen numbering) is the position in that
list.  `finals init fin` returns the `["final"][fin]` sub-entry of state
`init` if present (`final_existence` / `reaction_type` / `normal_mode`),
`ts init t` the `["ts"][t]` sub-entry (`ts_existence` / `ts_final_name`,
with the target already resolved to a state name), `teqGraph` the
`graph_teq_group` dictionary (reactant → parent state → descendant edge
list, insertion-ordered), `condition` the role tag, `refMarked` the
`reference_state` marker, `substates`/`theoryLevel` the fields used by
`State_Values`. -/

/-- A `["final"]` sub-entry of a state: a direct edge with its
`reaction_type` string and `normal_mode` count. -/
structure FinalEntry where
  reaction_type : String
  normal_mode : ℝ
deriving DecidableEq

/-- A `["ts"]` sub-entry of a state: a transition-state-mediated edge,
with its resolved final-state name. -/
structure TsEntry where
  final : String
deriving DecidableEq

/-- The queries the core makes of the configuration file. -/
structure Cfg where
  states : List String
  condition : String → String
  refMarked : String → Bool
  substates : String → Option (List String)
  theoryLevel : String → String
  finals : String → String → Option FinalEntry
  ts : String → String → Option TsEntry
  teqGraph : String → List (String × List (String × String))
  total_atoms : ℝ

/-- `TomlReader.state_num`: the first-seen numbering of a state name. -/
def Cfg.stateNum (cfg : Cfg) (s : String) : ℕ := cfg.states.indexOf s

/-- `TomlReader.reference_state`: the first state carrying the
`reference_state` marker, if any. -/
def Cfg.referenceState (cfg : Cfg) : Option String :=
  cfg.states.find? cfg.refMarked

/-- `TomlReader.reactant_list_name`: the states whose `condition` tag is
`"reactant"`, in state order. -/
def reactantList (cfg : Cfg) : List String :=
  cfg.states.filter (fun s => cfg.condition s == "reactant")

/-! ## `Reactions.dEs` (`terachem_values.py`) -/

/-- The assignments one `(init, next)` iteration of the `Reactions.dEs`
double loop performs, in order: if `ts_existence(init, next)`, write
`E[ts_num] - E[init_num]` at `(init_num, ts_final_num)`; then, if
`final_existence(init, next)` and the `reaction_type` is
`"vibrational relaxation"`, write `E[final_num] - E[init_num]` at
`(init_num, final_num)`. -/
def dEsPairWrites (cfg : Cfg) (E : ℕ → ℝ) (init next : String) : List ((ℕ × ℕ) × ℝ) :=
  (match cfg.ts init next with
    | some e =>
        [((cfg.stateNum init, cfg.stateNum e.final),
          E (cfg.stateNum next) - E (cfg.stateNum init))]
    | none => []) ++
  (match cfg.finals init next with
    | some e =>
        if e.reaction_type = "vibrational relaxation" then
          [((cfg.stateNum init, cfg.stateNum next),
            E (cfg.stateNum next) - E (cfg.stateNum init))]
        else []
    | none => [])

/-- `Reactions.dEs(state_list_energy)`: a zero-initialised N×N matrix filled
by the double loop over states, last write winning, read as a function on
index pairs. -/
def dEs (cfg : Cfg) (E : ℕ → ℝ) : ℕ × ℕ → ℝ :=
  cfg.states.foldl
    (fun m init =>
      cfg.states.foldl (fun m next => applyWrites (dEsPairWrites cfg E init next) m) m)
    (fun _ => 0)

/-- The full assignment sequence of `Reactions.dEs`, in program order. -/
def dEsInnerWrites (cfg : Cfg) (E : ℕ → ℝ) (init : String) : List ((ℕ × ℕ) × ℝ) :=
  cfg.states.foldl (fun acc next => acc ++ dEsPairWrites cfg E init next) []

/-- The full assignment sequence of `Reactions.dEs`, in program order. -/
def dEsWrites (cfg : Cfg) (E : ℕ → ℝ) : List ((ℕ × ℕ) × ℝ) :=
  cfg.states.foldl (fun acc init => acc ++ dEsInnerWrites cfg E init) []

theorem dEs_eq_applyWrites (cfg : Cfg) (E : ℕ → ℝ) :
    dEs cfg E = applyWrites (dEsWrites cfg E) (fun _ => 0) := by
  unfold dEs dEsWrites
  rw [← foldl_applyWrites (fun init => dEsInnerWrites cfg E init) cfg.states]
  apply List.foldl_ext
  intro m init _
  unfold dEsInnerWrites
  rw [← foldl_applyWrites (fun next => dEsPairWrites cfg E init next) cfg.states]

theorem mem_dEsWrites {cfg : Cfg} {E : ℕ → ℝ} {w : (ℕ × ℕ) × ℝ} :
    w ∈ dEsWrites cfg E ↔
      ∃ init ∈ cfg.states, ∃ next ∈ cfg.states, w ∈ dEsPairWrites cfg E init next := by
  unfold dEsWrites
  rw [mem_foldl_append]
  constructor
  · rintro ⟨init, hinit, hw⟩
    unfold dEsInnerWrites at hw
    rw [mem_foldl_append] at hw
    rcases hw with ⟨next, hnext, hw⟩
    exact ⟨init, hinit, next, hnext, hw⟩
  · rintro ⟨init, hinit, next, hnext, hw⟩
    refine ⟨init, hinit, ?_⟩
    unfold dEsInnerWrites
    rw [mem_foldl_append]
    exact ⟨next, hnext, hw⟩

/-- Claim C5 (amended): provided no two reactions of the configured network
target the same matrix cell, `Reactions.dEs` stores `E(ts) - E(init)` at
`(init, final)` for every transition-state-mediated reaction
`init -> ts -> final`, stores `E(final) - E(init)` at `(init, final)` for
every direct reaction whose `reaction_type` is `"vibrational relaxation"`,
and leaves every cell no assignment targets at zero.  (Direct reactions of
any other `reaction_type` perform no assignment, so their cells stay zero —
this is the amendment forced by `dEs_skips_emission_reaction`.) -/
theorem dEs_characterization (cfg : Cfg) (E : ℕ → ℝ)
    (hnd : ((dEsWrites cfg E).map Prod.fst).Nodup) :
    (∀ init next e, init ∈ cfg.states → next ∈ cfg.states →
        cfg.ts init next = some e →
        dEs cfg E (cfg.stateNum init, cfg.stateNum e.final) =
          E (cfg.stateNum next) - E (cfg.stateNum init)) ∧
    (∀ init next e, init ∈ cfg.states → next ∈ cfg.states →
        cfg.finals init next = some e →
        e.reaction_type = "vibrational relaxation" →
        dEs cfg E (cfg.stateNum init, cfg.stateNum next) =
          E (cfg.stateNum next) - E (cfg.stateNum init)) ∧
    (∀ c, c ∉ (dEsWrites cfg E).map Prod.fst → dEs cfg E c = 0) := by
  refine ⟨?_, ?_, ?_⟩
  · intro init next e hinit hnext hts
    have hmem : ((cfg.stateNum init, cfg.stateNum e.final),
        E (cfg.stateNum next) - E (cfg.stateNum init)) ∈ dEsWrites cfg E := by
      rw [mem_dEsWrites]
      refine ⟨init, hinit, next, hnext, ?_⟩
      unfold dEsPairWrites
      rw [hts]
      simp
    rw [dEs_eq_applyWrites, applyWrites_apply, lastWrite_of_nodup hnd hmem]
    rfl
  · intro init next e hinit hnext hfin htype
    have hmem : ((cfg.stateNum init, cfg.stateNum next),
        E (cfg.stateNum next) - E (cfg.stateNum init)) ∈ dEsWrites cfg E := by
      rw [mem_dEsWrites]
      refine ⟨init, hinit, next, hnext, ?_⟩
      unfold dEsPairWrites
      rw [hfin]
      simp [htype]
    rw [dEs_eq_applyWrites, applyWrites_apply, lastWrite_of_nodup hnd hmem]
    rfl
  · intro c hc
    rw [dEs_eq_applyWrites, applyWrites_apply, lastWrite_eq_none_of_not_mem hc]
    rfl

/-- The configuration of the C5 counterexample: two states `A`, `B` and a
single direct reaction `A -> B` whose `reaction_type` is
`"radiative emission"`. -/
def emCfg : Cfg where
  states := ["A", "B"]
  condition := fun _ => "intermediate"
  refMarked := fun _ => false
  substates := fun _ => none
  theoryLevel := fun _ => "excited"
  finals := fun init fin =>
    if init = "A" ∧ fin = "B" then some ⟨"radiative emission", 1⟩ else none
  ts := fun _ _ => none
  teqGraph := fun _ => []
  total_atoms := 3

/-- The energies of the C5 counterexample: `E(A) = 0`, `E(B) = 5`. -/
def emE : ℕ → ℝ := fun i => if i = 1 then 5 else 0

/-- Counterexample to claim C5 as stated: `A -> B` is an elementary reaction
of the configured network (a `final` entry with `reaction_type`
`"radiative emission"`), yet `dEs[0][1]` is left at its zero initialisation
instead of `E(B) - E(A) = 5`, because the `dEs` loop only writes direct
edges whose `reaction_type` is `"vibrational relaxation"`. -/
theorem dEs_skips_emission_reaction :
    emCfg.finals "A" "B" = some ⟨"radiative emission", 1⟩ ∧
      emCfg.stateNum "A" = 0 ∧ emCfg.stateNum "B" = 1 ∧
      dEs emCfg emE (0, 1) ≠ emE 1 - emE 0 := by
  refine ⟨by simp [emCfg], by simp [Cfg.stateNum, emCfg], by simp [Cfg.stateNum, emCfg], ?_⟩
  have hz : dEs emCfg emE (0, 1) = 0 := by
    simp [dEs, emCfg, dEsPairWrites, applyWrites]
  rw [hz]
  norm_num [emE]

/-- Witness configuration for the amended C5 statement: a
transition-state-mediated reaction `A -> TS -> C` and a direct vibrational
relaxation `A -> B`. -/
def wCfg5 : Cfg where
  states := ["A", "TS", "B", "C"]
  condition := fun _ => "intermediate"
  refMarked := fun _ => false
  substates := fun _ => none
  theoryLevel := fun _ => "excited"
  finals := fun init fin =>
    if init = "A" ∧ fin = "B" then some ⟨"vibrational relaxation", 1⟩ else none
  ts := fun init t => if init = "A" ∧ t = "TS" then some ⟨"C"⟩ else none
  teqGraph := fun _ => []
  total_atoms := 3

/-- Witness energies for the amended C5 statement. -/
def wE5 : ℕ → ℝ := fun i => (i : ℝ)

/-- Witness for C5: on `wCfg5` the assignment targets are pairwise distinct
and the activation-energy cell of `A -> TS -> C` holds `E(TS) - E(A)`. -/
theorem dEs_characterization_witness :
    ((dEsWrites wCfg5 wE5).map Prod.fst).Nodup ∧
      dEs wCfg5 wE5 (wCfg5.stateNum "A", wCfg5.stateNum "C") =
        wE5 (wCfg5.stateNum "TS") - wE5 (wCfg5.stateNum "A") := by
  have hnd : ((dEsWrites wCfg5 wE5).map Prod.fst).Nodup := by
    simp [dEsWrites, dEsInnerWrites, dEsPairWrites, wCfg5, Cfg.stateNum]
  exact ⟨hnd,
    (dEs_characterization wCfg5 wE5 hnd).1 "A" "TS" ⟨"C"⟩
      (by simp [wCfg5]) (by simp [wCfg5]) (by simp [wCfg5])⟩

/-! ## `Reactions.T_eq` and `Reactions.rates` (`terachem_values.py`) -/

/-- `Reactions.T_eq(state_list_energy, reactant, temp_state)`:
`300 + (E[reactant_num] - E[temp_state_num]) / ((3 * total_atoms - 6) * R_GAS)`. -/
def T_eqFn (cfg : Cfg) (E : ℕ → ℝ) (reactant temp_state : String) : ℝ :=
  300 + (E (cfg.stateNum reactant) - E (cfg.stateNum temp_state)) /
    ((3 * cfg.total_atoms - 6) * R_GAS)

/-- The assignments one `(reactant, init, next)` iteration of the
`Reactions.rates` triple loop performs, in order.  When `init == reactant`:
a vibrational-relaxation `final` entry writes the ad hoc rate at `T = 300`
into `(init_num, next_num)`.  Otherwise the loop runs over the keys
`temp_state` of `graph_teq_group[reactant]` and, whenever `(init, next)`
lies in that descendant group or `ts_existence(init, next)` holds, writes
the Eyring rate at `T = 329.05` into `(init_num, ts_final_num)` for a
transition-state entry, or else the ad hoc rate at `T = T_eq(reactant,
temp_state)` into `(init_num, next_num)` for a vibrational-relaxation
entry.  `dE` is the `dEs` matrix computed at the start of `rates`. -/
def ratesPairWrites (cfg : Cfg) (E : ℕ → ℝ) (dE : ℕ × ℕ → ℝ)
    (reactant init next : String) : List ((ℕ × ℕ) × ℝ) :=
  if init = reactant then
    match cfg.finals init next with
    | some e =>
        if e.reaction_type = "vibrational relaxation" then
          [((cfg.stateNum init, cfg.stateNum next),
            adhocRateFormula (dE (cfg.stateNum init, cfg.stateNum next))
              e.normal_mode cfg.total_atoms 300)]
        else []
    | none => []
  else
    (cfg.teqGraph reactant).foldl
      (fun acc g =>
        acc ++
          (if (init, next) ∈ g.2 ∨ (cfg.ts init next).isSome then
            match cfg.ts init next with
            | some e =>
                [((cfg.stateNum init, cfg.stateNum e.final),
                  eyringComputeRate (dE (cfg.stateNum init, cfg.stateNum e.final))
                    329.05 1)]
            | none =>
                match cfg.finals init next with
                | some f =>
                    if f.reaction_type = "vibrational relaxation" then
                      [((cfg.stateNum init, cfg.stateNum next),
                        adhocRateFormula (dE (cfg.stateNum init, cfg.stateNum next))
                          f.normal_mode cfg.total_atoms (T_eqFn cfg E reactant g.1))]
                    else []
                | none => []
          else []))
      []

/-- `Reactions.rates(state_list_energy)`: a zero-initialised N×N matrix
filled by the triple loop over reactants and state pairs, last write
winning. -/
def ratesM (cfg : Cfg) (E : ℕ → ℝ) : ℕ × ℕ → ℝ :=
  (reactantList cfg).foldl
    (fun m reactant =>
      cfg.states.foldl
        (fun m init =>
          cfg.states.foldl
            (fun m next => applyWrites (ratesPairWrites cfg E (dEs cfg E) reactant init next) m)
            m)
        m)
    (fun _ => 0)

/-- The assignment sequence of one `init` row of `Reactions.rates`. -/
def ratesInner2 (cfg : Cfg) (E : ℕ → ℝ) (reactant init : String) : List ((ℕ × ℕ) × ℝ) :=
  cfg.states.foldl
    (fun acc next => acc ++ ratesPairWrites cfg E (dEs cfg E) reactant init next) []

/-- The assignment sequence of one `reactant` pass of `Reactions.rates`. -/
def ratesInner1 (cfg : Cfg) (E : ℕ → ℝ) (reactant : String) : List ((ℕ × ℕ) × ℝ) :=
  cfg.states.foldl (fun acc init => acc ++ ratesInner2 cfg E reactant init) []

/-- The full assignment sequence of `Reactions.rates`, in program order. -/
def ratesWrites (cfg : Cfg) (E : ℕ → ℝ) : List ((ℕ × ℕ) × ℝ) :=
  (reactantList cfg).foldl (fun acc reactant => acc ++ ratesInner1 cfg E reactant) []

theorem ratesM_eq_applyWrites (cfg : Cfg) (E : ℕ → ℝ) :
    ratesM cfg E = applyWrites (ratesWrites cfg E) (fun _ => 0) := by
  unfold ratesM ratesWrites
  rw [← foldl_applyWrites (fun reactant => ratesInner1 cfg E reactant) (reactantList cfg)]
  apply List.foldl_ext
  intro m reactant _
  unfold ratesInner1
  rw [← foldl_applyWrites (fun init => ratesInner2 cfg E reactant init) cfg.states]
  apply List.foldl_ext
  intro m init _
  unfold ratesInner2
  rw [← foldl_applyWrites (fun next => ratesPairWrites cfg E (dEs cfg E) reactant init next) cfg.states]

theorem mem_ratesWrites {cfg : Cfg} {E : ℕ → ℝ} {w : (ℕ × ℕ) × ℝ} :
    w ∈ ratesWrites cfg E ↔
      ∃ reactant ∈ reactantList cfg, ∃ init ∈ cfg.states, ∃ next ∈ cfg.states,
        w ∈ ratesPairWrites cfg E (dEs cfg E) reactant init next := by
  unfold ratesWrites
  rw [mem_foldl_append]
  constructor
  · rintro ⟨reactant, hr, hw⟩
    unfold ratesInner1 at hw
    rw [mem_foldl_append] at hw
    rcases hw with ⟨init, hinit, hw⟩
    unfold ratesInner2 at hw
    rw [mem_foldl_append] at hw
    rcases hw with ⟨next, hnext, hw⟩
    exact ⟨reactant, hr, init, hinit, next, hnext, hw⟩
  · rintro ⟨reactant, hr, init, hinit, next, hnext, hw⟩
    refine ⟨reactant, hr, ?_⟩
    unfold ratesInner1
    rw [mem_foldl_append]
    refine ⟨init, hinit, ?_⟩
    unfold ratesInner2
    rw [mem_foldl_append]
    exact ⟨next, hnext, hw⟩

/-- Claim C9: the rate matrix holds at most one scalar per cell, and the
value that survives is the one written by the last-processed assignment:
for every cell, `Reactions.rates` returns the value of the last entry of
its program-order assignment sequence targeting that cell (scanning the
sequence from the end), zero if no assignment targets it; earlier
assignments to the same cell are silently overwritten and no error is
raised. -/
theorem rates_last_write_wins (cfg : Cfg) (E : ℕ → ℝ) (c : ℕ × ℕ) :
    ratesM cfg E c =
      (((ratesWrites cfg E).reverse.find? (fun w => decide (w.1 = c))).map Prod.snd).getD 0 := by
  rw [ratesM_eq_applyWrites, applyWrites_apply, lastWrite_find_reverse]

/-! ## Sign of the rate formulas -/

theorem adhocRateFormula_nonneg (d n N T : ℝ) (hT : 0 ≤ T) :
    0 ≤ adhocRateFormula d n N T := by
  have hK : (0 : ℝ) ≤ K_BOLTZ := by norm_num [K_BOLTZ]
  have hH : (0 : ℝ) < H_PLANCK := by norm_num [H_PLANCK]
  exact mul_nonneg (div_nonneg (mul_nonneg hK hT) hH.le) (Real.exp_pos _).le

theorem adhocRateFormula_neg (d n N T : ℝ) (hT : T < 0) :
    adhocRateFormula d n N T < 0 := by
  have hK : (0 : ℝ) < K_BOLTZ := by norm_num [K_BOLTZ]
  have hH : (0 : ℝ) < H_PLANCK := by norm_num [H_PLANCK]
  exact mul_neg_of_neg_of_pos
    (div_neg_of_neg_of_pos (mul_neg_of_pos_of_neg hK hT) hH) (Real.exp_pos _)

theorem eyringComputeRate_nonneg (dG T : ℝ) (hT : 0 ≤ T) :
    0 ≤ eyringComputeRate dG T 1 := by
  have hK : (0 : ℝ) ≤ K_BOLTZ := by norm_num [K_BOLTZ]
  have hH : (0 : ℝ) < H_PLANCK := by norm_num [H_PLANCK]
  unfold eyringComputeRate
  rw [one_mul]
  exact mul_nonneg (div_nonneg (mul_nonneg hK hT) hH.le) (Real.exp_pos _).le

theorem ratesWrites_nonneg (cfg : Cfg) (E : ℕ → ℝ)
    (hTeq : ∀ r ∈ reactantList cfg, ∀ g ∈ cfg.teqGraph r, 0 ≤ T_eqFn cfg E r g.1) :
    ∀ w ∈ ratesWrites cfg E, 0 ≤ w.2 := by
  intro w hw
  rw [mem_ratesWrites] at hw
  rcases hw with ⟨reactant, hr, init, _, next, _, hw⟩
  unfold ratesPairWrites at hw
  by_cases hi : init = reactant
  · rw [if_pos hi] at hw
    rcases hf : cfg.finals init next with _ | e <;> simp only [hf] at hw
    · exact absurd hw (by simp)
    · by_cases htype : e.reaction_type = "vibrational relaxation"
      · rw [if_pos htype, List.mem_singleton] at hw
        subst hw
        exact adhocRateFormula_nonneg _ _ _ _ (by norm_num)
      · rw [if_neg htype] at hw
        exact absurd hw (by simp)
  · rw [if_neg hi] at hw
    rw [mem_foldl_append] at hw
    rcases hw with ⟨g, hg, hw⟩
    by_cases hcond : (init, next) ∈ g.2 ∨ (cfg.ts init next).isSome
    · rw [if_pos hcond] at hw
      rcases hts : cfg.ts init next with _ | e <;> simp only [hts] at hw
      · rcases hf : cfg.finals init next with _ | f <;> simp only [hf] at hw
        · exact absurd hw (by simp)
        · by_cases htype : f.reaction_type = "vibrational relaxation"
          · rw [if_pos htype, List.mem_singleton] at hw
            subst hw
            exact adhocRateFormula_nonneg _ _ _ _ (hTeq reactant hr g hg)
          · rw [if_neg htype] at hw
            exact absurd hw (by simp)
      · rw [List.mem_singleton] at hw
        subst hw
        exact eyringComputeRate_nonneg _ _ (by norm_num)
    · rw [if_neg hcond] at hw
      exact absurd hw (by simp)

/-- Claim C10 (amended): every entry of the matrix built by
`Reactions.rates` is nonnegative provided every local-equilibrium
temperature `T_eq` of the configuration is nonnegative: each cell is either
its zero initialisation or an Eyring/ad hoc value of the form
`k_B * T / h * exp(...)` with `T` one of `300`, `329.05`, or a `T_eq`.
(The proviso is forced by `rates_negative_entry`: a `T_eq` below zero makes
the written rate negative.) -/
theorem rates_nonneg (cfg : Cfg) (E : ℕ → ℝ)
    (hTeq : ∀ r ∈ reactantList cfg, ∀ g ∈ cfg.teqGraph r, 0 ≤ T_eqFn cfg E r g.1) :
    ∀ c, 0 ≤ ratesM cfg E c := by
  intro c
  rw [ratesM_eq_applyWrites, applyWrites_apply]
  rcases h : lastWrite (ratesWrites cfg E) c with _ | v
  · exact le_refl 0
  · rw [Option.getD_some]
    exact ratesWrites_nonneg cfg E hTeq (c, v) (mem_of_lastWrite_eq_some h)

/-- The configuration of the C10 counterexample: reactant `R` with direct
relaxation `R -> A`, followed by relaxation `A -> B`; state `A` lies
1,000,000 J/mol above `R`, so the local-equilibrium temperature of the
`A` branch, `T_eq = 300 + (E(R) - E(A)) / ((3*3 - 6) * R_GAS)`, is far
below zero. -/
def negCfg : Cfg where
  states := ["R", "A", "B"]
  condition := fun s => if s = "R" then "reactant" else "intermediate"
  refMarked := fun _ => false
  substates := fun _ => none
  theoryLevel := fun _ => "excited"
  finals := fun init fin =>
    if (init = "R" ∧ fin = "A") ∨ (init = "A" ∧ fin = "B") then
      some ⟨"vibrational relaxation", 1⟩
    else none
  ts := fun _ _ => none
  teqGraph := fun r => if r = "R" then [("A", [("A", "B")])] else []
  total_atoms := 3

/-- The energies of the C10 counterexample. -/
def negE : ℕ → ℝ := fun i => if i = 1 then 1000000 else 0

theorem negCfg_Teq_neg : T_eqFn negCfg negE "R" "A" < 0 := by
  have h1 : negCfg.stateNum "R" = 0 := by simp [Cfg.stateNum, negCfg]
  have h2 : negCfg.stateNum "A" = 1 := by simp [Cfg.stateNum, negCfg]
  rw [T_eqFn, h1, h2]
  norm_num [negE, negCfg, R_GAS]

/-- Counterexample to claim C10 as stated: the matrix built by
`Reactions.rates` for `negCfg` holds a strictly negative rate constant in
cell `(1, 2)` (the `A -> B` relaxation), because the ad hoc formula is
evaluated at the negative local-equilibrium temperature
`T_eq(R, A) = 300 - 1000000 / (3 * R_GAS) < 0`, and `k_B * T / h * exp(...)`
has the sign of `T`. -/
theorem rates_negative_entry : ratesM negCfg negE (1, 2) < 0 := by
  have hval : ratesM negCfg negE (1, 2) =
      adhocRateFormula (dEs negCfg negE (1, 2)) 1 3 (T_eqFn negCfg negE "R" "A") := by
    simp [ratesM, reactantList, negCfg, ratesPairWrites, applyWrites, Cfg.stateNum]
  rw [hval]
  exact adhocRateFormula_neg _ _ _ _ negCfg_Teq_neg

/-- Benign energies for the C10 witness: state `A` lies only 100 J/mol
above `R`, so the local-equilibrium temperature stays positive. -/
def posE : ℕ → ℝ := fun i => if i = 1 then 100 else 0

/-- Witness for C10 (amended): on the `negCfg` network with benign energies
all local-equilibrium temperatures are nonnegative and the built matrix has
a nonnegative entry at the `A -> B` cell. -/
theorem rates_nonneg_witness :
    (∀ r ∈ reactantList negCfg, ∀ g ∈ negCfg.teqGraph r, 0 ≤ T_eqFn negCfg posE r g.1) ∧
      0 ≤ ratesM negCfg posE (1, 2) := by
  have hT : ∀ r ∈ reactantList negCfg, ∀ g ∈ negCfg.teqGraph r,
      0 ≤ T_eqFn negCfg posE r g.1 := by
    intro r hr g hg
    simp [reactantList, negCfg] at hr
    subst hr
    simp [negCfg] at hg
    subst hg
    have h1 : negCfg.stateNum "R" = 0 := by simp [Cfg.stateNum, negCfg]
    have h2 : negCfg.stateNum "A" = 1 := by simp [Cfg.stateNum, negCfg]
    rw [T_eqFn, h1, h2]
    norm_num [posE, negCfg, R_GAS]
  exact ⟨hT, rates_nonneg negCfg posE hT (1, 2)⟩

/-! ## `State_Values.state_relative_list_hartree` (`terachem_values.py`)

`State_Values.terachem_output(state, max_roots=5, substate_name=None,
ground=False)` resolves a state's raw energy by opening the TeraChem output
file backing it; it is pure file I/O over the out-of-scope
quantum-chemistry collaborator, so it is modelled as an uninterpreted
oracle `tco state substate_name ground` covering every backing file. -/

/-- The value `state_relative_list_hartree` stores for one state: `0.0`
when the state is the reference state; otherwise the summed (substates) or
single raw energy from `terachem_output`, minus the reference state's raw
energy resolved at the matching theory level.  (The reference branch of the
final `match` is unreachable when a reference state exists, which the
claims presuppose.) -/
def hartreeValue (cfg : Cfg) (tco : String → Option String → Bool → ℝ)
    (state : String) : ℝ :=
  if cfg.referenceState = some state then 0
  else
    (match cfg.substates state with
      | some subs => subs.foldl (fun acc sub => acc + tco state (some sub) false) 0
      | none => tco state none false) -
    (match cfg.referenceState with
      | some r =>
          if cfg.theoryLevel state = "excited" then tco r none false else tco r none true
      | none => 0)

/-- `State_Values.state_relative_list_hartree()`: a zero-initialised array
over all states, filled with `state_relative_list_energy[state_num] = ...`
for each state in configuration order. -/
def state_relative_list_hartree (cfg : Cfg)
    (tco : String → Option String → Bool → ℝ) : ℕ → ℝ :=
  cfg.states.foldl
    (fun arr state => Function.update arr (cfg.stateNum state) (hartreeValue cfg tco state))
    (fun _ => 0)

theorem foldl_update_eq_applyWrites {κ α β : Type} [DecidableEq κ]
    (l : List β) (k : β → κ) (v : β → α) (m : κ → α) :
    l.foldl (fun arr a => Function.update arr (k a) (v a)) m =
      applyWrites (l.map (fun a => (k a, v a))) m := by
  induction l generalizing m with
  | nil => rfl
  | cons a l ih =>
    rw [List.foldl_cons, ih, List.map_cons]
    rfl

/-- Claim C7: the entry of the relative-energy array at the reference
state's index is exactly `0`, whatever oracle (i.e. whatever underlying
calculation files) backs the states: the loop writes `0.0` there and, names
being distinct, no other state's write can land on that index. -/
theorem reference_state_energy_zero (cfg : Cfg)
    (tco : String → Option String → Bool → ℝ) (ref : String)
    (href : cfg.referenceState = some ref) (hnd : cfg.states.Nodup) :
    state_relative_list_hartree cfg tco (cfg.stateNum ref) = 0 := by
  have hrefmem : ref ∈ cfg.states := List.mem_of_find?_eq_some href
  rw [state_relative_list_hartree, foldl_update_eq_applyWrites, applyWrites_apply]
  have hkeys : ((cfg.states.map
      (fun s => (cfg.stateNum s, hartreeValue cfg tco s))).map Prod.fst).Nodup := by
    rw [List.map_map]
    have heq : (Prod.fst ∘ fun s => (cfg.stateNum s, hartreeValue cfg tco s)) =
        fun s => cfg.stateNum s := rfl
    rw [heq]
    exact List.Nodup.map_on
      (fun x hx y hy hxy => (List.indexOf_inj hx hy).mp hxy) hnd
  have hmem : (cfg.stateNum ref, hartreeValue cfg tco ref) ∈
      cfg.states.map (fun s => (cfg.stateNum s, hartreeValue cfg tco s)) :=
    List.mem_map_of_mem _ hrefmem
  rw [lastWrite_of_nodup hkeys hmem, Option.getD_some, hartreeValue, if_pos href]

/-- The configuration of the C7 witness: reference state `REF` plus one
ordinary state `X`. -/
def refCfg : Cfg where
  states := ["X", "REF"]
  condition := fun _ => "intermediate"
  refMarked := fun s => s == "REF"
  substates := fun _ => none
  theoryLevel := fun _ => "excited"
  finals := fun _ _ => none
  ts := fun _ _ => none
  teqGraph := fun _ => []
  total_atoms := 3

/-- Witness for C7: on `refCfg`, with an arbitrary constant oracle standing
for whatever file backs each state, the reference entry is `0`. -/
theorem reference_state_energy_zero_witness :
    refCfg.referenceState = some "REF" ∧ refCfg.states.Nodup ∧
      state_relative_list_hartree refCfg (fun _ _ _ => 7) (refCfg.stateNum "REF") = 0 := by
  have h1 : refCfg.referenceState = some "REF" := by
    simp [Cfg.referenceState, refCfg, List.find?]
  have h2 : refCfg.states.Nodup := by simp [refCfg]
  exact ⟨h1, h2, reference_state_energy_zero refCfg (fun _ _ _ => 7) "REF" h1 h2⟩

/-! ## `product_ratio` (`additional_functions.py`)

Python dicts are insertion-ordered maps, modelled as association lists with
unique keys; `frac_dict[key] += v` / `frac_dict[key] = v` is the upsert
below.  The function name ends in a token the development cannot use for a
Lean identifier, so the embedding is called `productPercentages`. -/

/-- One loop iteration of the dict build: add `v` under `k` if the key is
present, else append the new key. -/
def upsert (d : List (String × ℝ)) (k : String) (v : ℝ) : List (String × ℝ) :=
  if k ∈ d.map Prod.fst then
    d.map (fun p => if p.1 = k then (p.1, p.2 + v) else p)
  else d ++ [(k, v)]

/-- `product_ratio(spacing, conc, product_list_name, product_list_num)`:
group the final-time-point concentrations `conc[spacing-1][num]` by product
name, then divide each by the running total and scale by 100.  The division
by a zero total does not produce a normalised dict (plain floats raise
`ZeroDivisionError`, numpy floats give non-finite entries) — modelled as
`none`. -/
def productPercentages (spacing : ℕ) (conc : ℕ → ℕ → ℝ)
    (product_list_name : List String) (product_list_num : List ℕ) :
    Option (List (String × ℝ)) :=
  let d := (product_list_name.zip product_list_num).foldl
      (fun d p => upsert d p.1 (conc (spacing - 1) p.2)) []
  let s := (d.map Prod.snd).sum
  if s = 0 then none else some (d.map (fun p => (p.1, p.2 / s * 100)))

theorem upsert_map_fst_of_mem {d : List (String × ℝ)} {k : String} (v : ℝ)
    (h : k ∈ d.map Prod.fst) : (upsert d k v).map Prod.fst = d.map Prod.fst := by
  rw [upsert, if_pos h, List.map_map]
  apply List.map_congr_left
  intro p _
  by_cases hp : p.1 = k <;> simp [hp]

theorem upsert_map_fst_of_not_mem {d : List (String × ℝ)} {k : String} (v : ℝ)
    (h : k ∉ d.map Prod.fst) :
    (upsert d k v).map Prod.fst = d.map Prod.fst ++ [k] := by
  rw [upsert, if_neg h]
  simp

theorem upsert_keys_nodup {d : List (String × ℝ)} {k : String} (v : ℝ)
    (hnd : (d.map Prod.fst).Nodup) : ((upsert d k v).map Prod.fst).Nodup := by
  by_cases h : k ∈ d.map Prod.fst
  · rw [upsert_map_fst_of_mem v h]
    exact hnd
  · rw [upsert_map_fst_of_not_mem v h]
    simp [List.nodup_append, hnd, h]

theorem map_add_at_key_sum {d : List (String × ℝ)} {k : String} (v : ℝ)
    (hnd : (d.map Prod.fst).Nodup) (h : k ∈ d.map Prod.fst) :
    ((d.map (fun p => if p.1 = k then (p.1, p.2 + v) else p)).map Prod.snd).sum =
      ((d.map Prod.snd).sum) + v := by
  induction d with
  | nil => exact absurd h (by simp)
  | cons p d ih =>
    rw [List.map_cons, List.nodup_cons] at hnd
    by_cases hp : p.1 = k
    · have hnot : k ∉ d.map Prod.fst := by
        rw [← hp]
        exact hnd.1
      have hid : d.map (fun p => if p.1 = k then (p.1, p.2 + v) else p) = d := by
        conv_rhs => rw [← List.map_id d]
        apply List.map_congr_left
        intro q hq
        have hqk : q.1 ≠ k := fun he => hnot (he ▸ List.mem_map_of_mem Prod.fst hq)
        simp [hqk]
      rw [List.map_cons, if_pos hp, List.map_cons, hid]
      simp only [List.map_cons, List.sum_cons]
      ring
    · have hk : k ∈ d.map Prod.fst := by
        rcases List.mem_map.mp h with ⟨q, hq, hq1⟩
        rcases List.mem_cons.mp hq with h1 | h1
        · exact absurd (h1 ▸ hq1) hp
        · exact hq1 ▸ List.mem_map_of_mem Prod.fst h1
      rw [List.map_cons, if_neg hp]
      simp only [List.map_cons, List.sum_cons]
      rw [ih hnd.2 hk]
      ring

theorem upsert_sum {d : List (String × ℝ)} {k : String} (v : ℝ)
    (hnd : (d.map Prod.fst).Nodup) :
    ((upsert d k v).map Prod.snd).sum = (d.map Prod.snd).sum + v := by
  by_cases h : k ∈ d.map Prod.fst
  · rw [upsert, if_pos h]
    exact map_add_at_key_sum v hnd h
  · rw [upsert, if_neg h]
    simp

theorem foldl_upsert (kvs : List (String × ℝ)) (d0 : List (String × ℝ))
    (hnd : (d0.map Prod.fst).Nodup) :
    (((kvs.foldl (fun d p => upsert d p.1 p.2) d0).map Prod.fst).Nodup) ∧
      ((kvs.foldl (fun d p => upsert d p.1 p.2) d0).map Prod.snd).sum =
        (d0.map Prod.snd).sum + (kvs.map Prod.snd).sum := by
  induction kvs generalizing d0 with
  | nil => simp [hnd]
  | cons p kvs ih =>
    rw [List.foldl_cons]
    rcases ih (upsert d0 p.1 p.2) (upsert_keys_nodup p.2 hnd) with ⟨h1, h2⟩
    refine ⟨h1, ?_⟩
    rw [h2, upsert_sum p.2 hnd]
    simp only [List.map_cons, List.sum_cons]
    ring

theorem map_normalize_sum (d : List (String × ℝ)) (s : ℝ) :
    ((d.map (fun p => (p.1, p.2 / s * 100))).map Prod.snd).sum =
      (d.map Prod.snd).sum / s * 100 := by
  induction d with
  | nil => simp
  | cons p d ih =>
    simp only [List.map_cons, List.sum_cons, ih]
    ring

/-- Claim C6: feeding `product_ratio` the final time point, equal-length
name/index lists and concentrations whose listed total is nonzero, the
returned percentages (state indices sharing a product name having been
summed) add up to exactly 100; when the listed total is zero the
computation fails instead of returning a normalised dict. -/
theorem productPercentages_spec (spacing : ℕ) (conc : ℕ → ℕ → ℝ)
    (names : List String) (nums : List ℕ) (hlen : names.length = nums.length) :
    (((names.zip nums).map (fun p => conc (spacing - 1) p.2)).sum ≠ 0 →
      ∃ d, productPercentages spacing conc names nums = some d ∧
        (d.map Prod.snd).sum = 100) ∧
    (((names.zip nums).map (fun p => conc (spacing - 1) p.2)).sum = 0 →
      productPercentages spacing conc names nums = none) := by
  have hfold : (names.zip nums).foldl
      (fun d p => upsert d p.1 (conc (spacing - 1) p.2)) [] =
      ((names.zip nums).map (fun p => (p.1, conc (spacing - 1) p.2))).foldl
        (fun d p => upsert d p.1 p.2) [] := by
    rw [List.foldl_map]
  have hnd : (([] : List (String × ℝ)).map Prod.fst).Nodup := by simp
  rcases foldl_upsert ((names.zip nums).map (fun p => (p.1, conc (spacing - 1) p.2))) [] hnd
    with ⟨_, hsum⟩
  rw [List.map_map] at hsum
  have hvals : ((names.zip nums).map
      ((Prod.snd : String × ℝ → ℝ) ∘ fun p => (p.1, conc (spacing - 1) p.2))) =
      (names.zip nums).map (fun p => conc (spacing - 1) p.2) := rfl
  rw [hvals] at hsum
  simp only [List.map_nil, List.sum_nil, zero_add] at hsum
  constructor
  · intro hne
    rw [productPercentages]
    simp only [hfold]
    rw [if_neg (by rw [hsum]; exact hne)]
    refine ⟨_, rfl, ?_⟩
    rw [map_normalize_sum, hsum]
    rw [div_self hne]
    norm_num
  · intro hz
    rw [productPercentages]
    simp only [hfold]
    rw [if_pos (by rw [hsum]; exact hz)]

/-- Trajectory of the C6 witness: final concentrations `1, 2, 3` at states
`0, 1, 2`. -/
def wConc6 : ℕ → ℕ → ℝ := fun _ k => (k : ℝ) + 1

/-- Witness for C6: products `P, Q, P` over states `0, 1, 2` with final
concentrations `1, 2, 3`; the grouped percentages sum to 100. -/
theorem productPercentages_spec_witness :
    ((["P", "Q", "P"] : List String).length = ([0, 1, 2] : List ℕ).length) ∧
      ((((["P", "Q", "P"].zip ([0, 1, 2] : List ℕ)).map
          (fun p => wConc6 (1 - 1) p.2)).sum ≠ 0) ∧
        ∃ d, productPercentages 1 wConc6 ["P", "Q", "P"] [0, 1, 2] =
            some d ∧ (d.map Prod.snd).sum = 100) := by
  have hlen : (["P", "Q", "P"] : List String).length = ([0, 1, 2] : List ℕ).length := rfl
  have hne : (((["P", "Q", "P"].zip ([0, 1, 2] : List ℕ)).map
      (fun p => wConc6 (1 - 1) p.2)).sum ≠ 0) := by
    norm_num [wConc6]
  exact ⟨hlen, hne,
    (productPercentages_spec 1 wConc6 ["P", "Q", "P"] [0, 1, 2] hlen).1 hne⟩

/-! ## `expfitting` (`additional_functions.py`)

`scipy.optimize.curve_fit(exponential_func, x, y)` is the out-of-scope
optimiser; it is modelled as an oracle `fit x y` returning the optimal
parameters `(a, k, c)` of `y = a * exp(k * x) + c`, or `none` when it
raises `RuntimeError` (no convergence).  Plotting calls are terminal sinks
and carry no data, so they are omitted. -/

/-- One group's record in `expfitting_result`: `'Time constant'` is present
only when the fit converged; `'Fraction'` is always recorded. -/
structure FitEntry where
  timeConstant : Option ℝ
  fraction : ℝ

/-- The summed scalar trajectory of one spin grouping:
`y[j] = sum(conc[j][k] for k in group)` for `j` in `range(len(time))`. -/
def groupTraj (conc : ℕ → ℕ → ℝ) (nT : ℕ) (group : List ℕ) : List ℝ :=
  (List.range nT).map (fun j => (group.map (fun k => conc j k)).sum)

/-- `expfitting(time, x_axis, spin_list_dict, conc)` without its plotting
sink: for each group index `i`, build the summed trajectory `y`, try the
fit — on success record `time_constant = 1 / abs(k) * 10 ** 15` (the
femtosecond conversion in the source), on `RuntimeError` record nothing —
then always record `Fraction = y[len(time) - 1]`, and continue with the
next group. -/
def expfitting (time : List ℝ) (spin_list : List (List ℕ)) (conc : ℕ → ℕ → ℝ)
    (fit : List ℝ → List ℝ → Option (ℝ × ℝ × ℝ)) : List (String × FitEntry) :=
  (List.range spin_list.length).foldl
    (fun res i =>
      let y := groupTraj conc time.length (spin_list.getD i [])
      let entry : FitEntry :=
        match fit time y with
        | some (_, k, _) => ⟨some (1 / |k| * 10 ^ 15), y.getD (time.length - 1) 0⟩
        | none => ⟨none, y.getD (time.length - 1) 0⟩
      res ++ [("S" ++ toString i, entry)])
    []

theorem foldl_append_singleton_eq_map {β γ : Type} (g : γ → β) (l : List γ) :
    l.foldl (fun acc a => acc ++ [g a]) [] = l.map g := by
  induction l with
  | nil => rfl
  | cons a l ih =>
    rw [List.foldl_cons, foldl_append_acc (fun a => [g a]) l ([] ++ [g a]), ih]
    simp

/-- Claim C8: for every trajectory, every grouping list and every behaviour
of the optimiser, `expfitting` produces one labelled record per spin
grouping — a non-converging fit for one grouping is caught there (its
record merely lacks the time constant) and every other grouping is still
processed; when the fit for a grouping converges with parameters
`(a, k, c)`, its record's time constant is `1 / |k| * 10^15` (femtoseconds,
time being in seconds), and in all cases its record's fraction is the
summed trajectory's value at the final time point. -/
theorem expfitting_spec (time : List ℝ) (spin_list : List (List ℕ))
    (conc : ℕ → ℕ → ℝ) (fit : List ℝ → List ℝ → Option (ℝ × ℝ × ℝ)) :
    (expfitting time spin_list conc fit).length = spin_list.length ∧
      ∀ i, i < spin_list.length →
        ∃ e : FitEntry,
          (expfitting time spin_list conc fit)[i]? =
              some ("S" ++ toString i, e) ∧
            e.fraction = (groupTraj conc time.length
              (spin_list.getD i [])).getD (time.length - 1) 0 ∧
            (∀ a k c, fit time (groupTraj conc time.length (spin_list.getD i [])) =
                some (a, k, c) →
              e.timeConstant = some (1 / |k| * 10 ^ 15)) ∧
            (fit time (groupTraj conc time.length (spin_list.getD i [])) = none →
              e.timeConstant = none) := by
  have hmap : expfitting time spin_list conc fit =
      (List.range spin_list.length).map
        (fun i =>
          ("S" ++ toString i,
            match fit time (groupTraj conc time.length (spin_list.getD i [])) with
            | some (_, k, _) =>
                (⟨some (1 / |k| * 10 ^ 15),
                  (groupTraj conc time.length (spin_list.getD i [])).getD
                    (time.length - 1) 0⟩ : FitEntry)
            | none =>
                ⟨none,
                  (groupTraj conc time.length (spin_list.getD i [])).getD
                    (time.length - 1) 0⟩)) := by
    rw [expfitting]
    rw [foldl_append_singleton_eq_map]
  constructor
  · rw [hmap]
    simp
  · intro i hi
    rcases hfit : fit time (groupTraj conc time.length (spin_list.getD i [])) with
      _ | ⟨a, k, c⟩
    · refine ⟨⟨none,
        (groupTraj conc time.length (spin_list.getD i [])).getD (time.length - 1) 0⟩,
        ?_, rfl, ?_, fun _ => rfl⟩
      · simp only [hmap, List.getElem?_map, List.getElem?_range hi, Option.map_some', hfit]
      · intro a k c hk
        exact absurd hk (by simp)
    · refine ⟨⟨some (1 / |k| * 10 ^ 15),
        (groupTraj conc time.length (spin_list.getD i [])).getD (time.length - 1) 0⟩,
        ?_, rfl, ?_, ?_⟩
      · simp only [hmap, List.getElem?_map, List.getElem?_range hi, Option.map_some', hfit]
      · intro a2 k2 c2 hk
        simp only [Option.some.injEq, Prod.mk.injEq] at hk
        rw [hk.2.1]
      · intro hk
        exact absurd hk (by simp)

/-- Time grid of the C8 witness. -/
def wTime : List ℝ := [0, 1]

/-- Spin groupings of the C8 witness. -/
def wGroups : List (List ℕ) := [[0], [1]]

/-- Trajectory of the C8 witness. -/
def wConc8 : ℕ → ℕ → ℝ := fun _ k => (k : ℝ)

/-- Fit oracle of the C8 witness: it fails (RuntimeError) on the all-zero
trajectory of group 0 and converges on group 1. -/
def wFit : List ℝ → List ℝ → Option (ℝ × ℝ × ℝ) :=
  fun _ y => if y.getD 0 0 = 0 then none else some (1, 2, 3)

/-- Witness for C8, applied at group index 0 of a two-group run. -/
theorem expfitting_spec_witness :
    (0 : ℕ) < wGroups.length ∧
      ∃ e : FitEntry,
        (expfitting wTime wGroups wConc8 wFit)[(0 : ℕ)]? =
            some ("S" ++ toString (0 : ℕ), e) ∧
          e.fraction = (groupTraj wConc8 wTime.length
            (wGroups.getD 0 [])).getD (wTime.length - 1) 0 ∧
          (∀ a k c, wFit wTime (groupTraj wConc8 wTime.length (wGroups.getD 0 [])) =
              some (a, k, c) →
            e.timeConstant = some (1 / |k| * 10 ^ 15)) ∧
          (wFit wTime (groupTraj wConc8 wTime.length (wGroups.getD 0 [])) = none →
            e.timeConstant = none) :=
  ⟨by norm_num [wGroups],
    (expfitting_spec wTime wGroups wConc8 wFit).2 0 (by norm_num [wGroups])⟩
